import Mathlib

/-!
Shallow embedding of the `adante` argument classifier (`src/lib.rs`).

A Rust `&str` is embedded as its list of UTF-8 code units (`Str := List Nat`).
Rust string slicing `&s[a..b]` panics when the range is out of bounds or a
bound is not a character boundary, so slicing is embedded as an
`Option`-returning operation, and the whole of `Arguments::parse` as a
function into a three-valued outcome type (`panic`, `err`, `ok`).

The generic user-supplied classifiers `F::from_str` / `A::from_str`
(trait `ArgumentType`) are embedded as function parameters
`fromF : Str → E → Except E F` and `fromA : Str → E → Except E A`,
exactly the shape of `fn from_str<E>(key: &str, error: E) -> Result<Self, E>`.
-/

namespace Adante

/-- Bytes of a Rust `&str`: its UTF-8 code units, in order. -/
abbrev Str := List Nat

/-- Rust `str::is_char_boundary`: position `0` is always a boundary; a
position holding a byte is a boundary when that byte is not a UTF-8
continuation byte (`b as i8 >= -0x40`, i.e. `b < 0x80 ∨ 0xC0 ≤ b`); the
one-past-the-end position is a boundary; positions past that are not. -/
def is_char_boundary (s : Str) (p : Nat) : Bool :=
  if p = 0 then true
  else
    match s[p]? with
    | some b => decide (b < 128 ∨ 192 ≤ b)
    | none => decide (p = s.length)

/-- Rust string slicing `&s[a..b]` (`&s[a..]` is `&s[a..s.len()]`): defined
when `a ≤ b` and both `a` and `b` are character boundaries, a panic
otherwise. -/
def sliceOpt (s : Str) (a b : Nat) : Option Str :=
  if a ≤ b && is_char_boundary s a && is_char_boundary s b then
    some ((s.take b).drop a)
  else none

/-- Mirror of `struct Flag<T> { key: T, value: Option<String> }`
(`src/lib.rs`, lines 256-262). -/
structure Flag (F : Type) where
  key : F
  value : Option Str
deriving DecidableEq, Repr

/-- Mirror of `struct Arguments<F, A> { flags: Vec<Flag<F>>, actions: Vec<A> }`
(`src/lib.rs`, lines 267-272). -/
structure Arguments (F A : Type) where
  flags : List (Flag F)
  actions : List A
deriving DecidableEq, Repr

/-- Outcome of running a fallible Rust function that may also panic. -/
inductive POut (ε α : Type) where
  | panic : POut ε α
  | err : ε → POut ε α
  | ok : α → POut ε α
deriving DecidableEq, Repr

variable {E F A : Type}

/-- Mirror of `Arguments::new` (`src/lib.rs`, lines 322-327). -/
def Arguments.new : Arguments F A := ⟨[], []⟩

/-- The separator scan of `parse` (`src/lib.rs`, lines 412-416):
`for (i, &byte) in arg.as_bytes().iter().enumerate() { if byte == b'=' { eq_pos = i; } }`.
`scanEq bytes i acc` folds the remaining `bytes`, whose first element has
index `i`, over the current value `acc` of `eq_pos`. -/
def scanEq : Str → Nat → Nat → Nat
  | [], _, acc => acc
  | b :: rest, i, acc => scanEq rest (i + 1) (if b = 61 then i else acc)

/-- One iteration of the `for arg in env_args.iter()` loop of
`Arguments::parse` (`src/lib.rs`, lines 408-448).  The loop state is the
`Arguments` accumulator under construction together with the value of the
`eq_pos` variable, which the source declares *outside* the loop (line 407)
so that it persists from one iteration to the next.  Byte `45` is `-`,
byte `61` is `=`. -/
def parseStep (fromF : Str → E → Except E F) (fromA : Str → E → Except E A)
    (error : E) (st : Arguments F A × Nat) (arg : Str) :
    POut E (Arguments F A × Nat) :=
  match sliceOpt arg 0 1 with
  | none => .panic
  | some c =>
    if c = [45] then
      if scanEq arg 0 st.2 = 0 then
        match fromF arg error with
        | .error e => .err e
        | .ok v => .ok (⟨st.1.flags ++ [⟨v, none⟩], st.1.actions⟩, scanEq arg 0 st.2)
      else
        match sliceOpt arg 0 (scanEq arg 0 st.2) with
        | none => .panic
        | some key =>
          match sliceOpt arg (scanEq arg 0 st.2 + 1) arg.length with
          | none => .panic
          | some val =>
            match fromF key error with
            | .error e => .err e
            | .ok v => .ok (⟨st.1.flags ++ [⟨v, some val⟩], st.1.actions⟩, scanEq arg 0 st.2)
    else
      match fromA arg error with
      | .error e => .err e
      | .ok v => .ok (⟨st.1.flags, st.1.actions ++ [v]⟩, st.2)

/-- The loop of `Arguments::parse`, iterated from a given state. -/
def runSteps (fromF : Str → E → Except E F) (fromA : Str → E → Except E A)
    (error : E) (st : Arguments F A × Nat) : List Str → POut E (Arguments F A × Nat)
  | [] => .ok st
  | arg :: rest =>
    match parseStep fromF fromA error st arg with
    | .panic => .panic
    | .err e => .err e
    | .ok st' => runSteps fromF fromA error st' rest

/-- Mirror of `Arguments::parse` (`src/lib.rs`, lines 405-451): start from
`Arguments::new()` and `eq_pos = 0`, run the loop over `env_args`, and on
normal exit return `Ok(args)`. -/
def parse (fromF : Str → E → Except E F) (fromA : Str → E → Except E A)
    (env_args : List Str) (error : E) : POut E (Arguments F A) :=
  match runSteps fromF fromA error (Arguments.new, 0) env_args with
  | .panic => .panic
  | .err e => .err e
  | .ok st => .ok st.1

/-- Classifier that accepts every key, returning the key itself; used to
instantiate `parse` on concrete inputs. -/
def okF : Str → Nat → Except Nat Str := fun s _ => .ok s

/-- Classifier that rejects every key with the supplied error; used to
instantiate `parse` on concrete inputs. -/
def noF : Str → Nat → Except Nat Str := fun _ e => .error e

/-- UTF-8 continuation byte: `0x80 ≤ b < 0xC0`. -/
def isCont (b : Nat) : Bool := 128 ≤ b && b < 192

/-- A structural property every valid UTF-8 byte string has: a continuation
byte never immediately follows an ASCII byte (in valid UTF-8, continuation
bytes occur only inside a multi-byte character, whose lead byte is at least
`0xC2`).  Claims about arbitrary Rust `&str` tokens are stated under this
hypothesis, which is strictly weaker than full UTF-8 validity. -/
def wellSpaced : Str → Bool
  | [] => true
  | [_] => true
  | a :: b :: r => (!(decide (a < 128)) || !(isCont b)) && wellSpaced (b :: r)

/-!  Helper lemmas about boundaries, the separator scan, and the loop. -/

theorem wellSpaced_tail {a : Nat} {s : Str} (h : wellSpaced (a :: s) = true) :
    wellSpaced s = true := by
  cases s with
  | nil => rfl
  | cons b r =>
    simp only [wellSpaced, Bool.and_eq_true] at h
    exact h.2

theorem wellSpaced_pair {s : Str} (hw : wellSpaced s = true) {p b c : Nat}
    (hb : s[p]? = some b) (hc : s[p + 1]? = some c) (hB : b < 128) :
    isCont c = false := by
  induction s generalizing p with
  | nil => simp at hb
  | cons a r ih =>
    cases p with
    | zero =>
      rw [List.getElem?_cons_zero] at hb
      injection hb with hb
      subst hb
      rw [List.getElem?_cons_succ] at hc
      cases r with
      | nil => simp at hc
      | cons c' r' =>
        rw [List.getElem?_cons_zero] at hc
        injection hc with hc
        subst hc
        simp only [wellSpaced, Bool.and_eq_true, Bool.or_eq_true, Bool.not_eq_true',
          decide_eq_false_iff_not] at hw
        rcases hw.1 with h1 | h2
        · exact absurd hB h1
        · exact h2
    | succ q =>
      rw [List.getElem?_cons_succ] at hb hc
      exact ih (wellSpaced_tail hw) hb hc

theorem boundary_zero (s : Str) : is_char_boundary s 0 = true := rfl

theorem boundary_len (s : Str) : is_char_boundary s s.length = true := by
  unfold is_char_boundary
  by_cases h0 : s.length = 0
  · simp [h0]
  · rw [if_neg h0]
    have hn : s[s.length]? = none := by simp
    rw [hn]
    simp

theorem boundary_after {s : Str} (hw : wellSpaced s = true) {p b : Nat}
    (hb : s[p]? = some b) (hB : b < 128) : is_char_boundary s (p + 1) = true := by
  unfold is_char_boundary
  rw [if_neg (Nat.succ_ne_zero p)]
  cases hc : s[p + 1]? with
  | none =>
    have hlen : s.length ≤ p + 1 := List.getElem?_eq_none_iff.mp hc
    have hplt : p < s.length := (List.getElem?_eq_some.mp hb).1
    have : p + 1 = s.length := by omega
    simp [this]
  | some c =>
    have hcc := wellSpaced_pair hw hb hc hB
    simp only [isCont, Bool.and_eq_false_iff, decide_eq_false_iff_not, not_le, not_lt] at hcc
    simp only [decide_eq_true_eq]
    omega

theorem ascii_boundary {s : Str} (h : ∀ b ∈ s, b < 128) {p : Nat} (hp : p ≤ s.length) :
    is_char_boundary s p = true := by
  unfold is_char_boundary
  by_cases h0 : p = 0
  · simp [h0]
  · rw [if_neg h0]
    cases hc : s[p]? with
    | none =>
      have := List.getElem?_eq_none_iff.mp hc
      have hpl : p = s.length := by omega
      simp [hpl]
    | some b =>
      have hb := h b (List.getElem?_mem hc)
      simp only [decide_eq_true_eq]
      omega

theorem scanEq_of_not_mem {s : Str} (h : ¬ 61 ∈ s) : ∀ i acc, scanEq s i acc = acc := by
  induction s with
  | nil => intro i acc; rfl
  | cons b r ih =>
    intro i acc
    have hb : ¬ b = 61 := fun e => h (e ▸ List.mem_cons_self b r)
    simp only [scanEq, if_neg hb]
    exact ih (fun m => h (List.mem_cons_of_mem b m)) (i + 1) acc

theorem scanEq_last {s : Str} {p : Nat} (hp : s[p]? = some 61)
    (hlast : ∀ q, p < q → s[q]? ≠ some 61) : ∀ i acc, scanEq s i acc = i + p := by
  induction s generalizing p with
  | nil => simp at hp
  | cons b r ih =>
    intro i acc
    cases p with
    | zero =>
      rw [List.getElem?_cons_zero] at hp
      injection hp with hb
      subst hb
      simp only [scanEq, if_pos rfl]
      have hr : ¬ 61 ∈ r := by
        intro hm
        obtain ⟨n, hn⟩ := List.mem_iff_getElem?.mp hm
        exact hlast (n + 1) (Nat.succ_pos n) (by rw [List.getElem?_cons_succ]; exact hn)
      rw [scanEq_of_not_mem hr]
      simp
    | succ q =>
      rw [List.getElem?_cons_succ] at hp
      have hlast' : ∀ m, q < m → r[m]? ≠ some 61 := by
        intro m hm
        have := hlast (m + 1) (by omega)
        rw [List.getElem?_cons_succ] at this
        exact this
      simp only [scanEq]
      rw [ih hp hlast' (i + 1) _]
      omega

theorem runSteps_append (fromF : Str → E → Except E F) (fromA : Str → E → Except E A)
    (error : E) (xs ys : List Str) (st : Arguments F A × Nat) :
    runSteps fromF fromA error st (xs ++ ys) =
      match runSteps fromF fromA error st xs with
      | .panic => .panic
      | .err e => .err e
      | .ok st' => runSteps fromF fromA error st' ys := by
  induction xs generalizing st with
  | nil => simp [runSteps]
  | cons t xs ih =>
    simp only [List.cons_append, runSteps]
    cases parseStep fromF fromA error st t with
    | panic => rfl
    | err e => rfl
    | ok st' => exact ih st'

theorem sliceOpt_zero_one {t c : Str} (h : sliceOpt t 0 1 = some c) :
    ∃ b t', t = b :: t' ∧ c = [b] := by
  unfold sliceOpt at h
  split at h
  · rename_i hcond
    cases t with
    | nil => simp [is_char_boundary] at hcond
    | cons b t' =>
      refine ⟨b, t', rfl, ?_⟩
      injection h with h
      simpa using h.symm
  · simp at h

theorem parseStep_flag_no_sep (fromF : Str → E → Except E F) (fromA : Str → E → Except E A)
    (error : E) (st : Arguments F A × Nat) (t : Str)
    (hz : st.2 = 0) (h45 : t.head? = some 45) (hno : ¬ 61 ∈ t)
    (hb1 : is_char_boundary t 1 = true) :
    parseStep fromF fromA error st t =
      match fromF t error with
      | .error e => .err e
      | .ok v => .ok (⟨st.1.flags ++ [⟨v, none⟩], st.1.actions⟩, 0) := by
  cases t with
  | nil => simp at h45
  | cons b t' =>
    rw [List.head?_cons] at h45
    injection h45 with h45
    subst h45
    have hslice : sliceOpt (45 :: t') 0 1 = some [45] := by
      simp [sliceOpt, boundary_zero, hb1]
    have hscan : scanEq (45 :: t') 0 st.2 = 0 := by
      rw [hz]; exact scanEq_of_not_mem hno 0 0
    simp only [parseStep, hslice, hscan, if_pos rfl]
    simp

theorem parseStep_action (fromF : Str → E → Except E F) (fromA : Str → E → Except E A)
    (error : E) (st : Arguments F A × Nat) (t : Str) {b : Nat}
    (hh : t.head? = some b) (hb : ¬ b = 45) (hb1 : is_char_boundary t 1 = true) :
    parseStep fromF fromA error st t =
      match fromA t error with
      | .error e => .err e
      | .ok v => .ok (⟨st.1.flags, st.1.actions ++ [v]⟩, st.2) := by
  cases t with
  | nil => simp at hh
  | cons b0 t' =>
    rw [List.head?_cons] at hh
    injection hh with hh
    subst hh
    have hslice : sliceOpt (b0 :: t') 0 1 = some [b0] := by
      simp [sliceOpt, boundary_zero, hb1]
    have hne : ¬ ([b0] : Str) = [45] := by
      intro hcon
      injection hcon with h1 _
      exact hb h1
    simp only [parseStep, hslice, if_neg hne]

theorem parseStep_flag_sep (fromF : Str → E → Except E F) (fromA : Str → E → Except E A)
    (error : E) (st : Arguments F A × Nat) (t : Str) (p : Nat)
    (h45 : t.head? = some 45) (hw : wellSpaced t = true)
    (hp : t[p]? = some 61) (hafter : ¬ 61 ∈ t.drop (p + 1)) :
    parseStep fromF fromA error st t =
      match fromF (t.take p) error with
      | .error e => .err e
      | .ok v => .ok (⟨st.1.flags ++ [⟨v, some (t.drop (p + 1))⟩], st.1.actions⟩, p) := by
  have h0 : t[0]? = some 45 := by
    cases t with
    | nil => simp at h45
    | cons b t' =>
      rw [List.head?_cons] at h45
      injection h45 with h45
      subst h45
      simp
  have hpne : ¬ p = 0 := by
    intro hp0
    subst hp0
    rw [h0] at hp
    injection hp with hp
    omega
  have hplt : p < t.length := (List.getElem?_eq_some.mp hp).1
  have hb1 : is_char_boundary t 1 = true := boundary_after hw h0 (by omega)
  have hlast : ∀ q, p < q → t[q]? ≠ some 61 := by
    intro q hq hsome
    apply hafter
    have hd : (t.drop (p + 1))[q - (p + 1)]? = t[q]? := by
      rw [List.getElem?_drop]
      congr 1
      omega
    exact List.getElem?_mem (hd.trans hsome)
  have hscan : scanEq t 0 st.2 = p := by
    have := scanEq_last hp hlast 0 st.2
    simpa using this
  have hslice1 : sliceOpt t 0 1 = some [45] := by
    cases t with
    | nil => simp at h45
    | cons b t' =>
      rw [List.head?_cons] at h45
      injection h45 with h45
      subst h45
      simp [sliceOpt, boundary_zero, hb1]
  have hbp : is_char_boundary t p = true := by
    unfold is_char_boundary
    rw [if_neg hpne, hp]
    rfl
  have hbp1 : is_char_boundary t (p + 1) = true := boundary_after hw hp (by omega)
  have hkey : sliceOpt t 0 p = some (t.take p) := by
    simp [sliceOpt, boundary_zero, hbp]
  have hle : p + 1 ≤ t.length := hplt
  have hval : sliceOpt t (p + 1) t.length = some (t.drop (p + 1)) := by
    simp [sliceOpt, hbp1, boundary_len, hle]
  simp only [parseStep, hslice1, hscan, if_pos rfl, if_neg hpne, hkey, hval]
  simp

theorem parseStep_cases {fromF : Str → E → Except E F} {fromA : Str → E → Except E A}
    {error : E} {st st' : Arguments F A × Nat} {t : Str}
    (h : parseStep fromF fromA error st t = .ok st') :
    (sliceOpt t 0 1 = some [45] ∧
      ∃ fl, st'.1 = ⟨st.1.flags ++ [fl], st.1.actions⟩) ∨
    ((∃ c, sliceOpt t 0 1 = some c ∧ ¬ c = [45]) ∧
      ∃ a, st'.1 = ⟨st.1.flags, st.1.actions ++ [a]⟩) := by
  unfold parseStep at h
  split at h
  · exact POut.noConfusion h
  · rename_i c hc
    split at h
    · rename_i h45
      subst h45
      left
      refine ⟨hc, ?_⟩
      split at h
      · split at h
        · exact POut.noConfusion h
        · rename_i v hf
          injection h with h
          exact ⟨⟨v, none⟩, by rw [← h]⟩
      · split at h
        · exact POut.noConfusion h
        · rename_i key hk
          split at h
          · exact POut.noConfusion h
          · rename_i val hv
            split at h
            · exact POut.noConfusion h
            · rename_i v hf
              injection h with h
              exact ⟨⟨v, some val⟩, by rw [← h]⟩
    · rename_i h45
      right
      refine ⟨⟨c, hc, h45⟩, ?_⟩
      split at h
      · exact POut.noConfusion h
      · rename_i v hf
        injection h with h
        exact ⟨v, by rw [← h]⟩

theorem parseStep_err_conform {fromF : Str → E → Except E F} {fromA : Str → E → Except E A}
    {error : E}
    (hcF : ∀ s, fromF s error = .error error ∨ ∃ v, fromF s error = .ok v)
    (hcA : ∀ s, fromA s error = .error error ∨ ∃ v, fromA s error = .ok v)
    {st : Arguments F A × Nat} {t : Str} {e : E}
    (h : parseStep fromF fromA error st t = .err e) : e = error := by
  unfold parseStep at h
  split at h
  · exact POut.noConfusion h
  · rename_i c hc
    split at h
    · split at h
      · split at h
        · rename_i e' hf
          injection h with h
          subst h
          rcases hcF t with hf2 | ⟨v, hf2⟩ <;> rw [hf] at hf2
          · exact Except.error.inj hf2
          · exact Except.noConfusion hf2
        · exact POut.noConfusion h
      · split at h
        · exact POut.noConfusion h
        · rename_i key hk
          split at h
          · exact POut.noConfusion h
          · rename_i val hv
            split at h
            · rename_i e' hf
              injection h with h
              subst h
              rcases hcF key with hf2 | ⟨v, hf2⟩ <;> rw [hf] at hf2
              · exact Except.error.inj hf2
              · exact Except.noConfusion hf2
            · exact POut.noConfusion h
    · split at h
      · rename_i e' hf
        injection h with h
        subst h
        rcases hcA t with hf2 | ⟨v, hf2⟩ <;> rw [hf] at hf2
        · exact Except.error.inj hf2
        · exact Except.noConfusion hf2
      · exact POut.noConfusion h

theorem parseStep_ep_zero {fromF : Str → E → Except E F} {fromA : Str → E → Except E A}
    {error : E} {st st' : Arguments F A × Nat} {t : Str}
    (h : parseStep fromF fromA error st t = .ok st') (hz : st.2 = 0)
    (ht : t.head? = some 45 → ¬ 61 ∈ t) : st'.2 = 0 := by
  unfold parseStep at h
  split at h
  · exact POut.noConfusion h
  · rename_i c hc
    split at h
    · rename_i h45
      subst h45
      obtain ⟨b, t', rfl, hcb⟩ := sliceOpt_zero_one hc
      have hb : b = 45 := by injection hcb with h1 _; exact h1.symm
      subst hb
      have hno : ¬ 61 ∈ (45 :: t') := ht (by simp)
      have hscan : scanEq (45 :: t') 0 st.2 = 0 := by
        rw [hz]; exact scanEq_of_not_mem hno 0 0
      rw [hscan] at h
      rw [if_pos rfl] at h
      split at h
      · exact POut.noConfusion h
      · injection h with h
        rw [← h]
    · split at h
      · exact POut.noConfusion h
      · injection h with h
        rw [← h]
        exact hz

theorem runSteps_ep_zero {fromF : Str → E → Except E F} {fromA : Str → E → Except E A}
    {error : E} {pre : List Str} {st st' : Arguments F A × Nat}
    (hpre : ∀ u ∈ pre, u.head? = some 45 → ¬ 61 ∈ u)
    (h : runSteps fromF fromA error st pre = .ok st') (hz : st.2 = 0) : st'.2 = 0 := by
  induction pre generalizing st with
  | nil =>
    simp only [runSteps] at h
    injection h with h
    rw [← h]
    exact hz
  | cons t pre ih =>
    simp only [runSteps] at h
    split at h
    · exact POut.noConfusion h
    · exact POut.noConfusion h
    · rename_i st1 hstep
      exact ih (fun u hu => hpre u (by simp [hu])) h
        (parseStep_ep_zero hstep hz (hpre t (by simp)))

theorem runSteps_tagged {fromF : Str → E → Except E F} {fromA : Str → E → Except E A}
    {error : E} (tokens : List Str) (st st' : Arguments F A × Nat)
    (h : runSteps fromF fromA error st tokens = .ok st') :
    ∃ tagged : List (Sum (Flag F) A),
      List.Forall₂ (fun (x : Sum (Flag F) A) (t : Str) =>
        x.isLeft = true ↔ sliceOpt t 0 1 = some [45]) tagged tokens ∧
      st'.1.flags = st.1.flags ++ tagged.filterMap Sum.getLeft? ∧
      st'.1.actions = st.1.actions ++ tagged.filterMap Sum.getRight? := by
  induction tokens generalizing st with
  | nil =>
    simp only [runSteps] at h
    injection h with h
    subst h
    exact ⟨[], .nil, by simp, by simp⟩
  | cons t rest ih =>
    simp only [runSteps] at h
    split at h
    · exact POut.noConfusion h
    · exact POut.noConfusion h
    · rename_i st1 hstep
      obtain ⟨tagged, hfa, hf, ha⟩ := ih st1 h
      rcases parseStep_cases hstep with ⟨hsl, fl, hshape⟩ | ⟨⟨c, hsl, hc45⟩, a, hshape⟩
      · refine ⟨.inl fl :: tagged, .cons (by simp [hsl]) hfa, ?_, ?_⟩
        · rw [hf, hshape]
          simp
        · rw [ha, hshape]
          simp
      · refine ⟨.inr a :: tagged, .cons ?_ hfa, ?_, ?_⟩
        · constructor
          · intro hins
            simp at hins
          · intro heq
            rw [hsl] at heq
            injection heq with heq
            exact absurd heq hc45
        · rw [hf, hshape]
          simp
        · rw [ha, hshape]
          simp

theorem length_filterMap_left_right (l : List (Sum (Flag F) A)) :
    (l.filterMap Sum.getLeft?).length + (l.filterMap Sum.getRight?).length = l.length := by
  induction l with
  | nil => rfl
  | cons x l ih =>
    cases x with
    | inl fl =>
      simp only [List.filterMap_cons]
      simp
      omega
    | inr a =>
      simp only [List.filterMap_cons]
      simp
      omega

theorem runSteps_total (fromF : Str → E → Except E F) (fromA : Str → E → Except E A)
    (error : E) (tokens : List Str) (st : Arguments F A × Nat) (hz : st.2 = 0)
    (h : ∀ t ∈ tokens, t ≠ [] ∧ (∀ b ∈ t, b < 128) ∧ ¬ 61 ∈ t) :
    (∃ st', runSteps fromF fromA error st tokens = .ok st' ∧ st'.2 = 0) ∨
    (∃ e, runSteps fromF fromA error st tokens = .err e) := by
  induction tokens generalizing st with
  | nil => exact .inl ⟨st, rfl, hz⟩
  | cons t rest ih =>
    obtain ⟨hne, hascii, hno⟩ := h t (by simp)
    obtain ⟨b, t', rfl⟩ := List.exists_cons_of_ne_nil hne
    have hb1 : is_char_boundary (b :: t') 1 = true :=
      ascii_boundary hascii (by simp)
    by_cases h45 : b = 45
    · subst h45
      have hstep := parseStep_flag_no_sep fromF fromA error st (45 :: t') hz (by simp) hno hb1
      simp only [runSteps, hstep]
      cases hf : fromF (45 :: t') error with
      | error e => exact .inr ⟨e, rfl⟩
      | ok v => exact ih _ rfl (fun u hu => h u (by simp [hu]))
    · have hstep := parseStep_action fromF fromA error st (b :: t') (by simp) h45 hb1
      simp only [runSteps, hstep]
      cases hf : fromA (b :: t') error with
      | error e => exact .inr ⟨e, rfl⟩
      | ok v => exact ih _ hz (fun u hu => h u (by simp [hu]))

/-!  The claims.

Byte values used in concrete inputs: `45` is `-`, `61` is `=`, `97` is `a`,
`98` is `b`, `99` is `c`, `100` is `d`, `104` is `h`, `118` is `v`,
`120` is `x`, `121` is `y`, `122` is `z`; `[195, 169]` is the two-byte
UTF-8 encoding of `é`. -/

/-- **C1, counterexample.**  On the token `-a=b=c`, with classifiers that
accept every key and echo it back, `parse` splits at the *last* `=` (key
substring `-a=b`, value `c`), not at the first `=` (key `-a`, value `b=c`)
as the claim states. -/
theorem C1_counterexample :
    parse okF okF [[45, 97, 61, 98, 61, 99]] 0 =
      .ok ⟨[⟨[45, 97, 61, 98], some [99]⟩], []⟩ ∧
    parse okF okF [[45, 97, 61, 98, 61, 99]] 0 ≠
      .ok ⟨[⟨[45, 97], some [98, 61, 99]⟩], []⟩ := by
  decide

/-- **C1, amended.**  For every token beginning with `-` that contains one
or more `=`, `parse` (whose loop body on each token is `parseStep`) uses
the *last* occurrence of `=` in the token as the key/value separator: if
position `p` of the token holds `=` and no later position does, the flag's
key is the substring before `p` (earlier `=` characters are preserved
verbatim inside the key), its value is the substring after `p`, and the
key substring is what is passed to the flag classifier.  This holds at
every loop state `st`, hence at every position of the token in the input
sequence. -/
theorem C1_last_sep_amended (fromF : Str → E → Except E F) (fromA : Str → E → Except E A)
    (error : E) (st : Arguments F A × Nat) (t : Str) (p : Nat)
    (h45 : t.head? = some 45) (hw : wellSpaced t = true)
    (hp : t[p]? = some 61) (hafter : ¬ 61 ∈ t.drop (p + 1)) :
    parseStep fromF fromA error st t =
      match fromF (t.take p) error with
      | .error e => .err e
      | .ok v => .ok (⟨st.1.flags ++ [⟨v, some (t.drop (p + 1))⟩], st.1.actions⟩, p) :=
  parseStep_flag_sep fromF fromA error st t p h45 hw hp hafter

/-- Witness for `C1_last_sep_amended` at the concrete token `-a=b=c`
(last `=` at position 4). -/
theorem C1_last_sep_amended_witness :
    (([45, 97, 61, 98, 61, 99] : Str).head? = some 45 ∧
      wellSpaced [45, 97, 61, 98, 61, 99] = true ∧
      ([45, 97, 61, 98, 61, 99] : Str)[4]? = some 61 ∧
      ¬ 61 ∈ ([45, 97, 61, 98, 61, 99] : Str).drop 5) ∧
    parseStep okF okF 0 (Arguments.new, 0) [45, 97, 61, 98, 61, 99] =
      match okF (([45, 97, 61, 98, 61, 99] : Str).take 4) 0 with
      | .error e => .err e
      | .ok v =>
        .ok (⟨(Arguments.new : Arguments Str Str).flags ++
          [⟨v, some (([45, 97, 61, 98, 61, 99] : Str).drop 5)⟩],
          (Arguments.new : Arguments Str Str).actions⟩, 4) :=
  ⟨⟨by decide, by decide, by decide, by decide⟩,
    C1_last_sep_amended okF okF 0 (Arguments.new, 0) [45, 97, 61, 98, 61, 99] 4
      (by decide) (by decide) (by decide) (by decide)⟩

/-- **C2, counterexample.**  The `eq_pos` variable persists across loop
iterations (`src/lib.rs` line 407).  After the earlier flag token `-a=b`
sets it to 2, the later token `-xy` — which begins with `-` and contains
no `=` — is split at the stale position 2: its flag gets key substring
`-x` and value `Some("")`, not the whole token `-xy` as key with an absent
value as the claim states. -/
theorem C2_counterexample :
    parse okF okF [[45, 97, 61, 98], [45, 120, 121]] 0 =
      .ok ⟨[⟨[45, 97], some [98]⟩, ⟨[45, 120], some []⟩], []⟩ ∧
    parse okF okF [[45, 97, 61, 98], [45, 120, 121]] 0 ≠
      .ok ⟨[⟨[45, 97], some [98]⟩, ⟨[45, 120, 121], none⟩], []⟩ := by
  decide

/-- **C2, amended.**  A token beginning with `-` and containing no `=`
yields a flag whose key is the entire token (it is the whole token that is
passed to the flag classifier) with an absent value, *provided* no earlier
token beginning with `-` contained an `=` — i.e. provided the persistent
separator position is still 0 when the token is reached.  Earlier action
tokens are irrelevant, as is the position of the token otherwise. -/
theorem C2_whole_key_amended (fromF : Str → E → Except E F) (fromA : Str → E → Except E A)
    (error : E) (pre : List Str) (t : Str) (rest : List Str) (st : Arguments F A × Nat)
    (hpre : ∀ u ∈ pre, u.head? = some 45 → ¬ 61 ∈ u)
    (hrun : runSteps fromF fromA error (Arguments.new, 0) pre = .ok st)
    (h45 : t.head? = some 45) (hno : ¬ 61 ∈ t) (hw : wellSpaced t = true) :
    runSteps fromF fromA error (Arguments.new, 0) (pre ++ t :: rest) =
      match fromF t error with
      | .error e => .err e
      | .ok v =>
        runSteps fromF fromA error (⟨st.1.flags ++ [⟨v, none⟩], st.1.actions⟩, 0) rest := by
  rw [runSteps_append, hrun]
  show runSteps fromF fromA error st (t :: rest) = _
  have hz : st.2 = 0 := runSteps_ep_zero hpre hrun rfl
  have hb1 : is_char_boundary t 1 = true := by
    cases t with
    | nil => simp at h45
    | cons b t' =>
      rw [List.head?_cons] at h45
      injection h45 with h45
      subst h45
      have h00 : ((45 :: t' : Str))[0]? = some 45 := by simp
      exact boundary_after hw h00 (by omega)
  have hstep := parseStep_flag_no_sep fromF fromA error st t hz h45 hno hb1
  simp only [runSteps, hstep]
  cases hfc : fromF t error with
  | error e => rfl
  | ok v => rfl

/-- Witness for `C2_whole_key_amended`: after the earlier `=`-free flag
token `-v`, the token `-x` is taken whole. -/
theorem C2_whole_key_amended_witness :
    ((∀ u ∈ [([45, 118] : Str)], u.head? = some 45 → ¬ 61 ∈ u) ∧
      runSteps okF okF 0 (Arguments.new, 0) [[45, 118]] =
        .ok (⟨[⟨[45, 118], none⟩], []⟩, 0) ∧
      ([45, 120] : Str).head? = some 45 ∧ ¬ 61 ∈ ([45, 120] : Str) ∧
      wellSpaced [45, 120] = true) ∧
    runSteps okF okF 0 (Arguments.new, 0) ([[45, 118]] ++ [45, 120] :: []) =
      match okF [45, 120] 0 with
      | .error e => .err e
      | .ok v =>
        runSteps okF okF 0
          (⟨(⟨[⟨[45, 118], none⟩], []⟩ : Arguments Str Str).flags ++ [⟨v, none⟩],
            (⟨[⟨[45, 118], none⟩], []⟩ : Arguments Str Str).actions⟩, 0) [] :=
  ⟨⟨by decide, by decide, by decide, by decide, by decide⟩,
    C2_whole_key_amended okF okF 0 [[45, 118]] [45, 120] [] (⟨[⟨[45, 118], none⟩], []⟩, 0)
      (by decide) (by decide) (by decide) (by decide) (by decide)⟩

/-- **C3 (code bug).**  On an input containing the zero-length token, the
code evaluates `&arg[0..1]` (`src/lib.rs` line 410), which panics on an
empty string because the byte range `0..1` is out of bounds — it does not
return the supplied error value as the claim (and the spec's stated design
decision) requires.  Here the panic value is reached instead of `Err 0`. -/
theorem C3_empty_token_ub :
    parse okF okF [[]] 0 = .panic ∧ parse okF okF [[]] 0 ≠ .err 0 := by
  decide

/-- **C4.**  Fail-fast atomicity: if the tokens before `t` all classify
successfully (the loop reaches state `st`), and the token `t` fails
classification (its `parseStep` returns an error outcome), then — for
classifiers that only ever fail with the error value they were handed, as
the spec's classification capability prescribes — the error carried is the
supplied error value unchanged, and the whole `parse` call returns exactly
`err error`: no result value is produced, and the flags/actions accumulated
in `st` are discarded, whatever the remaining tokens `rest` may be. -/
theorem C4_fail_fast (fromF : Str → E → Except E F) (fromA : Str → E → Except E A)
    (error : E)
    (hcF : ∀ s, fromF s error = .error error ∨ ∃ v, fromF s error = .ok v)
    (hcA : ∀ s, fromA s error = .error error ∨ ∃ v, fromA s error = .ok v)
    (pre : List Str) (t : Str) (rest : List Str) (st : Arguments F A × Nat) (e : E)
    (hpre : runSteps fromF fromA error (Arguments.new, 0) pre = .ok st)
    (hfail : parseStep fromF fromA error st t = .err e) :
    e = error ∧ parse fromF fromA (pre ++ t :: rest) error = .err error := by
  have he : e = error := parseStep_err_conform hcF hcA hfail
  refine ⟨he, ?_⟩
  have hrun : runSteps fromF fromA error (Arguments.new, 0) (pre ++ t :: rest) = .err e := by
    rw [runSteps_append, hpre]
    show runSteps fromF fromA error st (t :: rest) = .err e
    simp only [runSteps, hfail]
  unfold parse
  rw [hrun, he]

/-- Witness for `C4_fail_fast`: a rejecting flag classifier, an accepting
action classifier, one good action token `a` before the failing flag token
`-x`, and a trailing token `z` that is never reached. -/
theorem C4_fail_fast_witness :
    (runSteps noF okF 7 (Arguments.new, 0) [[97]] = .ok (⟨[], [[97]]⟩, 0) ∧
      parseStep noF okF 7 (⟨[], [[97]]⟩, 0) [45, 120] = .err 7) ∧
    7 = 7 ∧ parse noF okF ([[97]] ++ [45, 120] :: [[122]]) 7 = .err 7 :=
  ⟨⟨by decide, by decide⟩,
    C4_fail_fast noF okF 7 (fun _ => Or.inl rfl) (fun s => Or.inr ⟨s, rfl⟩)
      [[97]] [45, 120] [[122]] (⟨[], [[97]]⟩, 0) 7 (by decide) (by decide)⟩

/-- **C5.**  On every input on which `parse` succeeds, the number of flags
plus the number of actions equals the number of input tokens: each token
contributed exactly one flag or one action. -/
theorem C5_partition_length (fromF : Str → E → Except E F) (fromA : Str → E → Except E A)
    (tokens : List Str) (error : E) (r : Arguments F A)
    (h : parse fromF fromA tokens error = .ok r) :
    r.flags.length + r.actions.length = tokens.length := by
  unfold parse at h
  split at h
  · exact POut.noConfusion h
  · exact POut.noConfusion h
  · rename_i st' hrs
    injection h with h
    subst h
    obtain ⟨tagged, hfa, hf, ha⟩ := runSteps_tagged tokens _ _ hrs
    have hlen := length_filterMap_left_right tagged
    have hlen2 := List.Forall₂.length_eq hfa
    rw [hf, ha]
    simp only [Arguments.new, List.nil_append, List.length_append]
    omega

/-- Witness for `C5_partition_length` on the input `["-v", "add"]`. -/
theorem C5_partition_length_witness :
    parse okF okF [[45, 118], [97, 100, 100]] 0 =
      .ok ⟨[⟨[45, 118], none⟩], [[97, 100, 100]]⟩ ∧
    (⟨[⟨[45, 118], none⟩], [[97, 100, 100]]⟩ : Arguments Str Str).flags.length +
      (⟨[⟨[45, 118], none⟩], [[97, 100, 100]]⟩ : Arguments Str Str).actions.length = 2 :=
  ⟨by decide,
    C5_partition_length okF okF [[45, 118], [97, 100, 100]] 0 _ (by decide)⟩

/-- **C6, counterexample.**  The token `é` (bytes `[195, 169]`) does not
begin with `-`, so the claim says it is passed whole to the action
classifier; instead `&arg[0..1]` panics, because byte position 1 falls
inside the two-byte character and is not a character boundary.  With an
accepting action classifier the claimed result would have been
`Ok { flags: [], actions: ["é"] }`. -/
theorem C6_counterexample :
    parse okF okF [[195, 169]] 0 = .panic ∧
    parse okF okF [[195, 169]] 0 ≠ .ok ⟨[], [[195, 169]]⟩ := by
  decide

/-- **C6, amended.**  For every token whose first character is a single
byte (first byte ASCII, `b < 128`), the dispatch is purely syntactic and
independent of the classifiers: if the first byte is not `-` the whole
token is passed to the action classifier (one action is appended on
success), and if it is `-` the token is handled by the flag path — which
panics, fails, or appends exactly one flag, and never touches the actions.
A token whose first character is multi-byte makes `parse` panic instead
(see the counterexample). -/
theorem C6_syntactic_dispatch_amended (fromF : Str → E → Except E F)
    (fromA : Str → E → Except E A) (error : E) (st : Arguments F A × Nat)
    (t : Str) (b : Nat) (hh : t.head? = some b) (hascii : b < 128)
    (hw : wellSpaced t = true) :
    (¬ b = 45 → parseStep fromF fromA error st t =
      match fromA t error with
      | .error e => .err e
      | .ok v => .ok (⟨st.1.flags, st.1.actions ++ [v]⟩, st.2)) ∧
    (b = 45 → parseStep fromF fromA error st t = .panic ∨
      (∃ e, parseStep fromF fromA error st t = .err e) ∨
      (∃ fl ep, parseStep fromF fromA error st t =
        .ok (⟨st.1.flags ++ [fl], st.1.actions⟩, ep))) := by
  have h0 : t[0]? = some b := by
    cases t with
    | nil => simp at hh
    | cons x t' =>
      rw [List.head?_cons] at hh
      injection hh with hh
      subst hh
      simp
  have hb1 : is_char_boundary t 1 = true := boundary_after hw h0 hascii
  constructor
  · intro hne
    exact parseStep_action fromF fromA error st t hh hne hb1
  · intro h45
    subst h45
    cases hout : parseStep fromF fromA error st t with
    | panic => exact .inl rfl
    | err e => exact .inr (.inl ⟨e, rfl⟩)
    | ok st' =>
      refine .inr (.inr ?_)
      obtain ⟨args', ep'⟩ := st'
      rcases parseStep_cases hout with ⟨hsl, fl, hshape⟩ | ⟨⟨c, hsl, hc45⟩, a, hshape⟩
      · refine ⟨fl, ep', ?_⟩
        have hs : args' = ⟨st.1.flags ++ [fl], st.1.actions⟩ := hshape
        rw [hs]
      · have hslice : sliceOpt t 0 1 = some [45] := by
          cases t with
          | nil => simp at hh
          | cons x t' =>
            rw [List.head?_cons] at hh
            injection hh with hh
            subst hh
            simp [sliceOpt, boundary_zero, hb1]
        rw [hslice] at hsl
        injection hsl with hsl
        exact absurd hsl.symm hc45

/-- Witness for `C6_syntactic_dispatch_amended` at the action token `add`. -/
theorem C6_syntactic_dispatch_amended_witness :
    (([97, 100, 100] : Str).head? = some 97 ∧ 97 < 128 ∧
      wellSpaced [97, 100, 100] = true) ∧
    ((¬ 97 = 45 → parseStep okF okF 0 (Arguments.new, 0) [97, 100, 100] =
      match okF [97, 100, 100] 0 with
      | .error e => .err e
      | .ok v =>
        .ok (⟨(Arguments.new : Arguments Str Str).flags,
          (Arguments.new : Arguments Str Str).actions ++ [v]⟩,
          ((Arguments.new : Arguments Str Str), 0).2)) ∧
    (97 = 45 → parseStep okF okF 0 (Arguments.new, 0) [97, 100, 100] = .panic ∨
      (∃ e, parseStep okF okF 0 (Arguments.new, 0) [97, 100, 100] = .err e) ∨
      (∃ fl ep, parseStep okF okF 0 (Arguments.new, 0) [97, 100, 100] =
        .ok (⟨(Arguments.new : Arguments Str Str).flags ++ [fl],
          (Arguments.new : Arguments Str Str).actions⟩, ep)))) :=
  ⟨⟨by decide, by decide, by decide⟩,
    C6_syntactic_dispatch_amended okF okF 0 (Arguments.new, 0) [97, 100, 100] 97
      (by decide) (by decide) (by decide)⟩

/-- **C7.**  For every token beginning with `-` that contains exactly one
`=`, at position `p`, the flag's key is `token[0..p]`, its value is
`Some(token[p+1..])` — including the case of an empty value substring —
and only the key substring `token[0..p]` is passed to the flag classifier.
This holds at every loop state, i.e. at every position of the token in the
input: with a unique `=`, the separator scan result is independent of the
stale state. -/
theorem C7_single_sep (fromF : Str → E → Except E F) (fromA : Str → E → Except E A)
    (error : E) (st : Arguments F A × Nat) (t : Str) (p : Nat)
    (h45 : t.head? = some 45) (hw : wellSpaced t = true)
    (hp : t[p]? = some 61) (hbefore : ¬ 61 ∈ t.take p) (hafter : ¬ 61 ∈ t.drop (p + 1)) :
    parseStep fromF fromA error st t =
      match fromF (t.take p) error with
      | .error e => .err e
      | .ok v => .ok (⟨st.1.flags ++ [⟨v, some (t.drop (p + 1))⟩], st.1.actions⟩, p) :=
  parseStep_flag_sep fromF fromA error st t p h45 hw hp hafter

/-- Witness for `C7_single_sep` at the token `-h=` (unique `=` at position
2, empty value substring), at a loop state with a stale separator
position 7 to exhibit state-independence. -/
theorem C7_single_sep_witness :
    (([45, 104, 61] : Str).head? = some 45 ∧ wellSpaced [45, 104, 61] = true ∧
      ([45, 104, 61] : Str)[2]? = some 61 ∧ ¬ 61 ∈ ([45, 104, 61] : Str).take 2 ∧
      ¬ 61 ∈ ([45, 104, 61] : Str).drop 3) ∧
    parseStep okF okF 0 (Arguments.new, 7) [45, 104, 61] =
      match okF (([45, 104, 61] : Str).take 2) 0 with
      | .error e => .err e
      | .ok v =>
        .ok (⟨(Arguments.new : Arguments Str Str).flags ++
          [⟨v, some (([45, 104, 61] : Str).drop 3)⟩],
          (Arguments.new : Arguments Str Str).actions⟩, 2) :=
  ⟨⟨by decide, by decide, by decide, by decide, by decide⟩,
    C7_single_sep okF okF 0 (Arguments.new, 7) [45, 104, 61] 2
      (by decide) (by decide) (by decide) (by decide) (by decide)⟩

/-- **C8.**  Order preservation: whenever `parse` succeeds, there is a list
of per-token outcomes `tagged`, in one-to-one order-preserving
correspondence with the input tokens (`List.Forall₂`), each outcome being a
flag exactly when its source token starts with `-` (i.e. when the
first-byte test `sliceOpt t 0 1 = some [45]` holds); the flags collection
is the in-order projection of the flag outcomes and the actions collection
the in-order projection of the action outcomes.  Hence each collection
lists its elements in source-token order, independently of interleaving. -/
theorem C8_order_preservation (fromF : Str → E → Except E F) (fromA : Str → E → Except E A)
    (tokens : List Str) (error : E) (r : Arguments F A)
    (h : parse fromF fromA tokens error = .ok r) :
    ∃ tagged : List (Sum (Flag F) A),
      List.Forall₂ (fun (x : Sum (Flag F) A) (t : Str) =>
        x.isLeft = true ↔ sliceOpt t 0 1 = some [45]) tagged tokens ∧
      r.flags = tagged.filterMap Sum.getLeft? ∧
      r.actions = tagged.filterMap Sum.getRight? := by
  unfold parse at h
  split at h
  · exact POut.noConfusion h
  · exact POut.noConfusion h
  · rename_i st' hrs
    injection h with h
    subst h
    obtain ⟨tagged, hfa, hf, ha⟩ := runSteps_tagged tokens _ _ hrs
    refine ⟨tagged, hfa, ?_, ?_⟩
    · rw [hf]
      simp [Arguments.new]
    · rw [ha]
      simp [Arguments.new]

/-- Witness for `C8_order_preservation` on the input `["-v", "a"]`. -/
theorem C8_order_preservation_witness :
    parse okF okF [[45, 118], [97]] 0 = .ok ⟨[⟨[45, 118], none⟩], [[97]]⟩ ∧
    ∃ tagged : List (Sum (Flag Str) Str),
      List.Forall₂ (fun (x : Sum (Flag Str) Str) (t : Str) =>
        x.isLeft = true ↔ sliceOpt t 0 1 = some [45]) tagged [[45, 118], [97]] ∧
      (⟨[⟨[45, 118], none⟩], [[97]]⟩ : Arguments Str Str).flags =
        tagged.filterMap Sum.getLeft? ∧
      (⟨[⟨[45, 118], none⟩], [[97]]⟩ : Arguments Str Str).actions =
        tagged.filterMap Sum.getRight? :=
  ⟨by decide, C8_order_preservation okF okF [[45, 118], [97]] 0 _ (by decide)⟩

/-- **C9.**  On the empty input sequence `parse` returns `Ok` with empty
flags and empty actions, for every error value and every pair of
classifiers. -/
theorem C9_empty_input (fromF : Str → E → Except E F) (fromA : Str → E → Except E A)
    (error : E) : parse fromF fromA [] error = .ok ⟨[], []⟩ := rfl

/-- **C10.**  Totality under the precondition: when every token is
non-empty, all-ASCII, and free of `=`, `parse` never reaches the panic
outcome — every string slice it takes is in bounds and on character
boundaries — and returns either `Ok` or `Err`. -/
theorem C10_totality (fromF : Str → E → Except E F) (fromA : Str → E → Except E A)
    (error : E) (tokens : List Str)
    (h : ∀ t ∈ tokens, t ≠ [] ∧ (∀ b ∈ t, b < 128) ∧ ¬ 61 ∈ t) :
    (∃ r, parse fromF fromA tokens error = .ok r) ∨
    (∃ e, parse fromF fromA tokens error = .err e) := by
  rcases runSteps_total fromF fromA error tokens (Arguments.new, 0) rfl h with
    ⟨st', hrs, _⟩ | ⟨e, hrs⟩
  · refine .inl ⟨st'.1, ?_⟩
    unfold parse
    rw [hrs]
  · refine .inr ⟨e, ?_⟩
    unfold parse
    rw [hrs]

/-- Witness for `C10_totality` on the input `["-v", "add"]`. -/
theorem C10_totality_witness :
    (∀ t ∈ [([45, 118] : Str), [97, 100, 100]],
      t ≠ [] ∧ (∀ b ∈ t, b < 128) ∧ ¬ 61 ∈ t) ∧
    ((∃ r, parse okF okF [[45, 118], [97, 100, 100]] 0 = .ok r) ∨
      (∃ e, parse okF okF [[45, 118], [97, 100, 100]] 0 = .err e)) :=
  ⟨by decide, C10_totality okF okF 0 [[45, 118], [97, 100, 100]] (by decide)⟩

end Adante
